import Mathlib

/-
Verification development for the translation-status reconciliation core of
the Grex repository (src/Scripts/translate_remaining_entries.py).

The script manipulates .resw resource stores.  Each data element is modelled
as an `Entry` holding its name, its value text and the optional text of its
comment element, which the script uses as the status marker.  The script
parses stores into dictionaries keyed by the name attribute, so keys are
unique within a store; lookups are modelled as first-match searches over the
entry list.  The external translation service is modelled as an oracle
giving the outcome of each call.
-/

structure Entry where
  name : String
  value : String
  comment : Option String
deriving DecidableEq

/-- Character class used by Python str.strip with no arguments (ASCII part). -/
def isPySpace (c : Char) : Bool :=
  c = ' ' || c = '\t' || c = '\n' || c = '\r' || c = '\x0b' || c = '\x0c'

/-- Python str.strip(): remove leading and trailing whitespace. -/
def pyStrip (s : String) : String :=
  ⟨((s.data.dropWhile isPySpace).reverse.dropWhile isPySpace).reverse⟩

/-- Python str.lower() restricted to ASCII letters. -/
def asciiLower (s : String) : String :=
  ⟨s.data.map (fun c => if 'A' ≤ c ∧ c ≤ 'Z' then Char.ofNat (c.toNat + 32) else c)⟩

/-- Does the first list start with the second one? -/
def listStartsWith : List Char → List Char → Bool
  | _, [] => true
  | [], _ :: _ => false
  | c :: cs, d :: ds => c = d && listStartsWith cs ds

/-- Python str.startswith. -/
def statusStarts (s p : String) : Bool :=
  listStartsWith s.data p.data

/-- Does the second list appear as a contiguous sublist of the first? -/
def listHasSub (needle : List Char) : List Char → Bool
  | [] => needle.isEmpty
  | c :: rest => listStartsWith (c :: rest) needle || listHasSub needle rest

/-- Python substring membership test: needle in hay. -/
def strContains (hay needle : String) : Bool :=
  listHasSub needle.data hay.data

/-- get_comment_status: the stripped comment text, or none when the comment
element is missing or its text is empty (Python truthiness of the text). -/
def get_comment_status (comment : Option String) : Option String :=
  match comment with
  | none => none
  | some t => if t = "" then none else some (pyStrip t)

/-- Python `comment_status and comment_status.startswith(p)`: a missing or
empty status is falsy. -/
def statusTruthyStarts (cs : Option String) (p : String) : Bool :=
  match cs with
  | none => false
  | some s => !(s == "") && statusStarts s p

/-- Dictionary lookup in an association list (dict.get). -/
def lookupVal (l : List (String × String)) (k : String) : Option String :=
  match l with
  | [] => none
  | kv :: rest => if kv.1 = k then some kv.2 else lookupVal rest k

/-- Lookup of the data element with a given name attribute. -/
def findEntry : List Entry → String → Option Entry
  | [], _ => none
  | e :: rest, k => if e.name = k then some e else findEntry rest k

/-- set_comment_status applied to the entry with the given name, when present. -/
def setStatus (store : List Entry) (k : String) (st : String) : List Entry :=
  store.map (fun e => if e.name = k then { e with comment := some st } else e)

/-- The status marker of the named entry, read through get_comment_status. -/
def statusOf (store : List Entry) (k : String) : Option String :=
  (findEntry store k).bind (fun e => get_comment_status e.comment)

/-- The value of the named entry. -/
def valueOf (store : List Entry) (k : String) : Option String :=
  (findEntry store k).map Entry.value

/-- Keys that are kept in English (TECHNICAL_KEYS in the script). -/
def TECHNICAL_KEYS : List String :=
  ["AppName", "KBComboBoxItem.Content", "MBComboBoxItem.Content",
   "GBComboBoxItem.Content", "URLPresetButton.Content"]

/-- The literal KB/MB/GB list the script repeats in two places. -/
def forcedUnitKeys : List String :=
  ["KBComboBoxItem.Content", "MBComboBoxItem.Content", "GBComboBoxItem.Content"]

/-- The comment_status a loop iteration of find_untranslated_entries reads
for a key: the status of its data element, when one exists. -/
def commentStatusIn (store : List Entry) (k : String) : Option String :=
  (findEntry store k).bind (fun e => get_comment_status e.comment)

/-- One iteration of the loop in find_untranslated_entries for the english
pair kv: the (possibly status-marked) store together with the work item
enqueued for kv, if any. -/
def classifyStep (store : List Entry) (kv : String × String) :
    List Entry × Option (String × String) :=
  if kv.1 ∈ TECHNICAL_KEYS then
    (setStatus store kv.1 "status:complete", none)
  else if kv.1 = "AppName" ∨ kv.1 ∈ forcedUnitKeys then
    (setStatus store kv.1 "status:complete", none)
  else if commentStatusIn store kv.1 = some "status:complete" then (store, none)
  else if statusTruthyStarts (commentStatusIn store kv.1) "status:error:permanent" then
    (store, none)
  else
    match findEntry store kv.1 with
    | none => (store, some kv)
    | some e =>
      if e.value ≠ kv.2 then (setStatus store kv.1 "status:complete", none)
      else if commentStatusIn store kv.1 = none then (store, some kv)
      else if commentStatusIn store kv.1 = some "status:incomplete" then (store, some kv)
      else if statusStarts ((commentStatusIn store kv.1).getD "") "status:error:" then
        (store, some kv)
      else (store, none)

/-- find_untranslated_entries: iterate over the english entries in order,
marking statuses on the target store and collecting the work list. -/
def find_untranslated_entries (english : List (String × String))
    (store : List Entry) : List Entry × List (String × String) :=
  match english with
  | [] => (store, [])
  | kv :: rest =>
    let s1 := (classifyStep store kv).1
    let item := (classifyStep store kv).2
    let r := find_untranslated_entries rest s1
    (r.1, item.toList ++ r.2)

/-- update_resw_file, translation-processing loop, case of a key whose data
element exists: apply the translated value (or the failure bookkeeping) to
that entry. -/
def updateExisting (english : List (String × String))
    (errors : List (String × String)) (k : String) (tv : Option String)
    (e : Entry) : Entry :=
  if e.value ≠ (lookupVal english k).getD "" then
    { e with comment := some "status:complete" }
  else
    match tv with
    | some t =>
      if t ≠ "" then { e with value := t, comment := some "status:complete" }
      else e
    | none =>
      if (lookupVal errors k).getD "Translation failed"
          = "Translation same as English" then
        { e with comment := some "status:complete" }
      else if (lookupVal english k).getD "" = "Tab" then
        { e with comment := some "status:complete" }
      else if statusTruthyStarts (get_comment_status e.comment) "status:error:" then
        { e with comment := some "status:error:permanent" }
      else
        { e with
          comment := some ("status:error:" ++ (lookupVal errors k).getD "Translation failed") }

/-- update_resw_file, translation-processing loop, case of a key with no data
element: the entry created and appended to the store. -/
def newMissingEntry (english : List (String × String)) (k : String)
    (tv : Option String) : Entry :=
  match tv with
  | some t =>
    if t ≠ "" then ⟨k, t, some "status:complete"⟩
    else ⟨k, (lookupVal english k).getD "", some "status:incomplete"⟩
  | none => ⟨k, (lookupVal english k).getD "", some "status:incomplete"⟩

/-- One iteration of the translation-processing loop of update_resw_file. -/
def applyTranslationKey (english : List (String × String))
    (errors : List (String × String)) (store : List Entry)
    (kv : String × Option String) : List Entry :=
  if (findEntry store kv.1).isSome then
    store.map (fun e =>
      if e.name = kv.1 then updateExisting english errors kv.1 kv.2 e else e)
  else store ++ [newMissingEntry english kv.1 kv.2]

/-- The translation-processing loop of update_resw_file over all items. -/
def processTranslations (english : List (String × String))
    (errors : List (String × String)) :
    List Entry → List (String × Option String) → List Entry
  | store, [] => store
  | store, kv :: rest =>
    processTranslations english errors (applyTranslationKey english errors store kv) rest

/-- The completion sweep of update_resw_file applied to one entry: force the
hard-coded keys to complete, fill in a default status when the marker is
missing, and leave every other entry untouched. -/
def sweepEntry (english : List (String × String)) (isEnglish : Bool)
    (e : Entry) : Entry :=
  if e.name = "AppName" ∨ e.name ∈ forcedUnitKeys then
    { e with comment := some "status:complete" }
  else
    match get_comment_status e.comment with
    | some _ => e
    | none =>
      if isEnglish then { e with comment := some "status:complete" }
      else
        match lookupVal english e.name with
        | some ev =>
          if e.value = ev then { e with comment := some "status:incomplete" }
          else { e with comment := some "status:complete" }
        | none => { e with comment := some "status:incomplete" }

/-- update_resw_file: apply the translations, then run the completion sweep
over every entry of the store. -/
def update_resw_file (store : List Entry)
    (translations : List (String × Option String))
    (errors : List (String × String)) (english : List (String × String))
    (isEnglish : Bool) : List Entry :=
  (processTranslations english errors store translations).map
    (sweepEntry english isEnglish)

/-- main, unsupported-language branch: how one entry of the store is marked
when the locale maps to the sentinel code and the work list is nonempty. -/
def markUnsupportedEntry (english : List (String × String))
    (workKeys : List String) (e : Entry) : Entry :=
  if e.name ∈ workKeys then
    if e.value ≠ (lookupVal english e.name).getD "" then
      { e with comment := some "status:complete" }
    else if (lookupVal english e.name).getD "" = "Tab" then
      { e with comment := some "status:complete" }
    else { e with comment := some "status:error:permanent" }
  else e

/-- main, translation loop, successful call: the pending translation entry
and the pending error entry recorded for a returned translation t of the
english value v under key k.  The comparison is between stripped strings. -/
def recordSuccess (k t v : String) :
    (String × Option String) × Option (String × String) :=
  if pyStrip t = pyStrip v then
    ((k, none), some (k, "Translation same as English"))
  else ((k, some t), none)

/-- Outcome of one driver-level call of translate_text, as seen by main:
either a translated string, or None (failure), or the
InvalidDestinationLanguageError raised for an invalid destination language. -/
inductive LoopOutcome where
  | success (t : String)
  | failed
  | invalidLang
deriving DecidableEq

/-- main, translation loop: the batched incremental persistence.  Every
fifth item, and on the last item, the accumulated translations are written
through update_resw_file and the accumulators are cleared. -/
def flushState (english : List (String × String)) (total i : Nat)
    (store : List Entry) (pend : List (String × Option String))
    (pendErr : List (String × String)) :
    List Entry × List (String × Option String) × List (String × String) :=
  if (i % 5 = 0 ∨ i = total) ∧ ¬(pend = [] ∧ pendErr = []) then
    (update_resw_file store pend pendErr english false, [], [])
  else (store, pend, pendErr)

/-- main, translation loop over the work items of one locale.  i is the
1-based index of the current item, total the length of the full work list,
and the oracle gives the outcome of the i-th translation call.  On an
invalid-destination-language error the accumulated batch is persisted, the
failing entry and then all remaining entries are recorded as
"Invalid destination language" failures, and the loop stops. -/
def translateLoop (english : List (String × String))
    (oracle : Nat → LoopOutcome) (total : Nat) :
    List (String × String) → Nat → List Entry →
    List (String × Option String) → List (String × String) → List Entry
  | [], _, store, _, _ => store
  | kv :: rest, i, store, pend, pendErr =>
    match oracle i with
    | .invalidLang =>
      let store1 :=
        if ¬(pend = [] ∧ pendErr = []) then
          update_resw_file store pend pendErr english false
        else store
      let store2 := update_resw_file store1 [(kv.1, none)]
        [(kv.1, "Invalid destination language")] english false
      update_resw_file store2
        (rest.map (fun p => (p.1, (none : Option String))))
        (rest.map (fun p => (p.1, "Invalid destination language")))
        english false
    | .failed =>
      let st := flushState english total i store (pend ++ [(kv.1, none)])
        (pendErr ++ [(kv.1, "Translation service returned None")])
      translateLoop english oracle total rest (i + 1) st.1 st.2.1 st.2.2
    | .success t =>
      let r := recordSuccess kv.1 t kv.2
      let st := flushState english total i store (pend ++ [r.1])
        (pendErr ++ r.2.toList)
      translateLoop english oracle total rest (i + 1) st.1 st.2.1 st.2.2

/-- main, processing of one target locale with the translator available:
the initial comment-backfilling call of update_resw_file, the
classification pass, then either nothing (empty work list), the
unsupported-language marking (sentinel language code), or the translation
loop. -/
def runLocale (english : List (String × String)) (store : List Entry)
    (oracle : Nat → LoopOutcome) (supported : Bool) : List Entry :=
  let s1 := update_resw_file store [] [] english false
  let r := find_untranslated_entries english s1
  if r.2 = [] then r.1
  else if supported then
    translateLoop english oracle r.2.length r.2 1 r.1 [] []
  else
    r.1.map (markUnsupportedEntry english (r.2.map Prod.fst))

/-- Outcome of one attempt of the external translate call inside
translate_text: a result, an AttributeError with message text, or any other
exception with message text. -/
inductive AttemptResult where
  | ok (t : String)
  | attrError (msg : String)
  | otherError (msg : String)
deriving DecidableEq

/-- translate_text, AttributeError branch: the known family of transient
client-library faults that is retried. -/
def attrRetryable (m : String) : Bool :=
  strContains m "raise_Exception" || strContains m "Translator" ||
    strContains m "object has no attribute"

/-- The rate-limit indicator substrings of translate_text. -/
def rateIndicators : List String :=
  ["rate", "limit", "quota", "429", "too many", "throttle"]

/-- Does the lowered error text contain a rate-limit indicator? -/
def hasRateIndicator (s : String) : Bool :=
  rateIndicators.any (fun ind => strContains s ind)

/-- Does the lowered error text signal an invalid destination language? -/
def hasInvalidDest (s : String) : Bool :=
  strContains s "invalid destination language"

/-- Result of translate_text: a translation, None, or the raised
InvalidDestinationLanguageError. -/
inductive TResult where
  | success (t : String)
  | failure
  | invalidLang
deriving DecidableEq

/-- Observable behaviour of one translate_text call: its result, the number
of attempts made against the service, and the list of backoff waits (in
seconds) performed between attempts. -/
structure TTOut where
  result : TResult
  attempts : Nat
  waits : List Nat
deriving DecidableEq

/-- The retry loop of translate_text.  fuel is the number of loop iterations
left (max_retries - attempt); attempt is the 0-based attempt index.  The
attempt < max_retries - 1 guards of the script correspond to fuel = 0 after
the current iteration. -/
def ttGo (oracle : Nat → AttemptResult) : Nat → Nat → TTOut
  | 0, _ => ⟨.failure, 0, []⟩
  | fuel + 1, attempt =>
    match oracle attempt with
    | .ok t => ⟨.success t, 1, []⟩
    | .attrError m =>
      if attrRetryable m then
        if fuel = 0 then ⟨.failure, 1, []⟩
        else
          let rest := ttGo oracle fuel (attempt + 1)
          ⟨rest.result, rest.attempts + 1, (attempt + 1) * 2 :: rest.waits⟩
      else ⟨.failure, 1, []⟩
    | .otherError m =>
      if hasInvalidDest (asciiLower m) then ⟨.invalidLang, 1, []⟩
      else if hasRateIndicator (asciiLower m) then
        if fuel = 0 then ⟨.failure, 1, []⟩
        else
          let rest := ttGo oracle fuel (attempt + 1)
          ⟨rest.result, rest.attempts + 1, (attempt + 1) * 2 :: rest.waits⟩
      else ⟨.failure, 1, []⟩

/-- translate_text with the default max_retries = 10, the prefix-stripped
input text and the destination language being abstracted into the oracle. -/
def translate_text (oracle : Nat → AttemptResult) : TTOut :=
  ttGo oracle 10 0

/-- The attempt outcomes that the retry loop of translate_text retries. -/
def isRetryable : AttemptResult → Bool
  | .ok _ => false
  | .attrError m => attrRetryable m
  | .otherError m =>
    !hasInvalidDest (asciiLower m) && hasRateIndicator (asciiLower m)

/-- The stored statuses that exclude an entry from the work list in
find_untranslated_entries before its value is even compared. -/
def SkipStatus (cs : Option String) : Bool :=
  (cs == some "status:complete") || statusTruthyStarts cs "status:error:permanent"

theorem findEntry_eq_name {s : List Entry} {k : String} {e : Entry}
    (h : findEntry s k = some e) : e.name = k := by
  induction s with
  | nil => simp [findEntry] at h
  | cons a rest ih =>
    simp only [findEntry] at h
    by_cases ha : a.name = k
    · simp [ha] at h
      rw [← h]
      exact ha
    · simp [ha] at h
      exact ih h

theorem findEntry_map_of_name {f : Entry → Entry}
    (hf : ∀ e, (f e).name = e.name) (s : List Entry) (k : String) :
    findEntry (s.map f) k = (findEntry s k).map f := by
  induction s with
  | nil => rfl
  | cons e rest ih =>
    simp only [List.map_cons, findEntry, hf e]
    by_cases h : e.name = k
    · simp [h]
    · simp [h, ih]

theorem findEntry_append_some {s : List Entry} {k : String} {e : Entry}
    (t : List Entry) (h : findEntry s k = some e) :
    findEntry (s ++ t) k = some e := by
  induction s with
  | nil => simp [findEntry] at h
  | cons a rest ih =>
    simp only [findEntry] at h ⊢
    by_cases ha : a.name = k
    · simp [ha] at h ⊢
      exact h
    · simp [ha] at h ⊢
      exact ih h

theorem findEntry_append_none {s : List Entry} {k : String}
    (t : List Entry) (h : findEntry s k = none) :
    findEntry (s ++ t) k = findEntry t k := by
  induction s with
  | nil => rfl
  | cons a rest ih =>
    simp only [findEntry] at h ⊢
    by_cases ha : a.name = k
    · simp [ha] at h
    · simp [ha] at h ⊢
      exact ih h

theorem setStatus_name (k c : String) :
    ∀ e : Entry,
      ((fun e : Entry => if e.name = k then { e with comment := some c } else e) e).name
        = e.name := by
  intro e
  by_cases h : e.name = k <;> simp [h]

theorem findEntry_setStatus_self (s : List Entry) (k c : String) :
    findEntry (setStatus s k c) k
      = (findEntry s k).map (fun e => { e with comment := some c }) := by
  unfold setStatus
  rw [findEntry_map_of_name (setStatus_name k c)]
  cases h : findEntry s k with
  | none => rfl
  | some e =>
    have := findEntry_eq_name h
    simp [this]

theorem findEntry_setStatus_ne (s : List Entry) {k' k : String} (c : String)
    (h : k' ≠ k) : findEntry (setStatus s k' c) k = findEntry s k := by
  unfold setStatus
  rw [findEntry_map_of_name (setStatus_name k' c)]
  cases hf : findEntry s k with
  | none => rfl
  | some e =>
    have hn := findEntry_eq_name hf
    have : ¬(e.name = k') := by
      rw [hn]
      exact fun hc => h hc.symm
    simp [this]

theorem updateExisting_name (english errors : List (String × String))
    (k : String) (tv : Option String) (e : Entry) :
    (updateExisting english errors k tv e).name = e.name := by
  unfold updateExisting
  repeat' split
  all_goals rfl

theorem newMissingEntry_name (english : List (String × String)) (k : String)
    (tv : Option String) : (newMissingEntry english k tv).name = k := by
  unfold newMissingEntry
  repeat' split
  all_goals rfl

theorem sweepEntry_name (english : List (String × String)) (b : Bool)
    (e : Entry) : (sweepEntry english b e).name = e.name := by
  unfold sweepEntry
  repeat' split
  all_goals rfl

theorem sweepEntry_value (english : List (String × String)) (b : Bool)
    (e : Entry) : (sweepEntry english b e).value = e.value := by
  unfold sweepEntry
  repeat' split
  all_goals rfl

theorem markUnsupportedEntry_name (english : List (String × String))
    (workKeys : List String) (e : Entry) :
    (markUnsupportedEntry english workKeys e).name = e.name := by
  unfold markUnsupportedEntry
  repeat' split
  all_goals rfl

theorem markUnsupportedEntry_value (english : List (String × String))
    (workKeys : List String) (e : Entry) :
    (markUnsupportedEntry english workKeys e).value = e.value := by
  unfold markUnsupportedEntry
  repeat' split
  all_goals rfl

theorem classifyStep_fst (s : List Entry) (kv : String × String) :
    (classifyStep s kv).1 = s ∨
      (classifyStep s kv).1 = setStatus s kv.1 "status:complete" := by
  unfold classifyStep
  repeat' split
  all_goals simp

theorem classifyStep_snd_eq {s : List Entry} {kv x : String × String}
    (h : (classifyStep s kv).2 = some x) : x = kv := by
  unfold classifyStep at h
  repeat' split at h
  all_goals simp_all

theorem classifyStep_findEntry_ne {s : List Entry} {kv : String × String}
    {k : String} (h : kv.1 ≠ k) :
    findEntry (classifyStep s kv).1 k = findEntry s k := by
  rcases classifyStep_fst s kv with hc | hc <;> rw [hc]
  exact findEntry_setStatus_ne s "status:complete" h

theorem find_untranslated_cons (kv : String × String)
    (rest : List (String × String)) (s : List Entry) :
    find_untranslated_entries (kv :: rest) s =
      ((find_untranslated_entries rest (classifyStep s kv).1).1,
       (classifyStep s kv).2.toList ++
         (find_untranslated_entries rest (classifyStep s kv).1).2) := rfl

theorem find_untranslated_frame {l : List (String × String)} {k : String}
    (s : List Entry) (h : k ∉ l.map Prod.fst) :
    findEntry (find_untranslated_entries l s).1 k = findEntry s k ∧
      ∀ x ∈ (find_untranslated_entries l s).2, x.1 ≠ k := by
  induction l generalizing s with
  | nil => exact ⟨rfl, by simp [find_untranslated_entries]⟩
  | cons kv rest ih =>
    have hk1 : kv.1 ≠ k := by
      intro hc
      exact h (by simp [hc])
    have hkr : k ∉ rest.map Prod.fst := by
      intro hc
      exact h (by simp [hc])
    rw [find_untranslated_cons]
    obtain ⟨ih1, ih2⟩ := ih ((classifyStep s kv).1) hkr
    refine ⟨by rw [ih1, classifyStep_findEntry_ne hk1], ?_⟩
    intro x hx
    rcases List.mem_append.mp hx with hx | hx
    · have hxx : (classifyStep s kv).2 = some x := by
        cases hcs : (classifyStep s kv).2 with
        | none => simp [hcs] at hx
        | some y =>
          simp [hcs] at hx
          simp [hcs, hx]
      rw [classifyStep_snd_eq hxx]
      exact hk1
    · exact ih2 x hx

theorem find_untranslated_keys (l : List (String × String)) (s : List Entry) :
    ∀ x ∈ (find_untranslated_entries l s).2, x.1 ∈ l.map Prod.fst := by
  induction l generalizing s with
  | nil => simp [find_untranslated_entries]
  | cons kv rest ih =>
    intro x hx
    rw [find_untranslated_cons] at hx
    rcases List.mem_append.mp hx with hx | hx
    · have hxx : (classifyStep s kv).2 = some x := by
        cases hcs : (classifyStep s kv).2 with
        | none => simp [hcs] at hx
        | some y =>
          simp [hcs] at hx
          simp [hcs, hx]
      rw [classifyStep_snd_eq hxx]
      simp
    · have := ih (classifyStep s kv).1 x hx
      simp [this]

theorem gcs_complete :
    get_comment_status (some "status:complete") = some "status:complete" := by
  decide

theorem gcs_incomplete :
    get_comment_status (some "status:incomplete") = some "status:incomplete" := by
  decide

theorem skip_complete : SkipStatus (some "status:complete") = true := by
  decide

theorem classifyStep_forced {s : List Entry} {kv : String × String}
    (h : kv.1 ∈ TECHNICAL_KEYS ∨ kv.1 = "AppName" ∨ kv.1 ∈ forcedUnitKeys) :
    classifyStep s kv = (setStatus s kv.1 "status:complete", none) := by
  unfold classifyStep
  rcases h with h | h
  · simp [h]
  · by_cases h1 : kv.1 ∈ TECHNICAL_KEYS
    · simp [h1]
    · simp [h1, h]

theorem classifyStep_skip {s : List Entry} {kv : String × String} {e : Entry}
    (hf : findEntry s kv.1 = some e)
    (hs : SkipStatus (get_comment_status e.comment) = true) :
    (classifyStep s kv).2 = none ∧
      ∃ e2, findEntry (classifyStep s kv).1 kv.1 = some e2 ∧
        e2.value = e.value ∧ SkipStatus (get_comment_status e2.comment) = true := by
  by_cases h1 : kv.1 ∈ TECHNICAL_KEYS ∨ kv.1 = "AppName" ∨ kv.1 ∈ forcedUnitKeys
  · rw [classifyStep_forced h1]
    refine ⟨rfl, ?_⟩
    rw [findEntry_setStatus_self, hf]
    exact ⟨_, rfl, rfl, by rw [gcs_complete]; exact skip_complete⟩
  · push_neg at h1
    have hcs : commentStatusIn s kv.1 = get_comment_status e.comment := by
      simp [commentStatusIn, hf]
    unfold classifyStep
    simp only [h1.1, if_false]
    have h2 : ¬(kv.1 = "AppName" ∨ kv.1 ∈ forcedUnitKeys) := by
      push_neg
      exact h1.2
    simp only [h2, if_false]
    rw [hcs]
    simp only [SkipStatus, Bool.or_eq_true, beq_iff_eq] at hs
    rcases hs with hs | hs
    · simp only [hs, if_true]
      exact ⟨by trivial, e, hf, rfl, by rw [hs]; exact skip_complete⟩
    · by_cases h3 : get_comment_status e.comment = some "status:complete"
      · simp only [h3, if_true]
        exact ⟨by trivial, e, hf, rfl, by rw [h3]; exact skip_complete⟩
      · simp only [h3, if_false, hs, if_true]
        refine ⟨by trivial, e, hf, rfl, ?_⟩
        simp [SkipStatus, hs]

theorem classifyStep_diverge {s : List Entry} {kv : String × String} {e : Entry}
    (hf : findEntry s kv.1 = some e) (hv : e.value ≠ kv.2)
    (hp : statusTruthyStarts (get_comment_status e.comment)
      "status:error:permanent" = false) :
    (classifyStep s kv).2 = none ∧
      ∃ e2, findEntry (classifyStep s kv).1 kv.1 = some e2 ∧
        e2.value = e.value ∧
        get_comment_status e2.comment = some "status:complete" := by
  by_cases h1 : kv.1 ∈ TECHNICAL_KEYS ∨ kv.1 = "AppName" ∨ kv.1 ∈ forcedUnitKeys
  · rw [classifyStep_forced h1]
    refine ⟨rfl, ?_⟩
    rw [findEntry_setStatus_self, hf]
    exact ⟨_, rfl, rfl, gcs_complete⟩
  · push_neg at h1
    have hcs : commentStatusIn s kv.1 = get_comment_status e.comment := by
      simp [commentStatusIn, hf]
    unfold classifyStep
    simp only [h1.1, if_false]
    have h2 : ¬(kv.1 = "AppName" ∨ kv.1 ∈ forcedUnitKeys) := by
      push_neg
      exact h1.2
    simp only [h2, if_false]
    rw [hcs]
    by_cases h3 : get_comment_status e.comment = some "status:complete"
    · simp only [h3, if_true]
      exact ⟨by trivial, e, hf, rfl, h3⟩
    · simp only [h3, if_false, hp, Bool.false_eq_true, if_false, hf]
      rw [if_pos hv]
      refine ⟨by trivial, ?_⟩
      rw [findEntry_setStatus_self, hf]
      exact ⟨_, rfl, rfl, gcs_complete⟩

theorem classify_skip_all (l : List (String × String)) {s : List Entry}
    {k : String} {e : Entry} (hf : findEntry s k = some e)
    (hs : SkipStatus (get_comment_status e.comment) = true) :
    ∃ e2, findEntry (find_untranslated_entries l s).1 k = some e2 ∧
      e2.value = e.value ∧ SkipStatus (get_comment_status e2.comment) = true ∧
      ∀ x ∈ (find_untranslated_entries l s).2, x.1 ≠ k := by
  induction l generalizing s e with
  | nil => exact ⟨e, hf, rfl, hs, by simp [find_untranslated_entries]⟩
  | cons kv rest ih =>
    rw [find_untranslated_cons]
    by_cases hk : kv.1 = k
    · subst hk
      obtain ⟨h2, e2, hf2, hv2, hs2⟩ := classifyStep_skip hf hs
      obtain ⟨e3, hf3, hv3, hs3, hw3⟩ := ih hf2 hs2
      refine ⟨e3, hf3, hv3.trans hv2, hs3, ?_⟩
      intro x hx
      rcases List.mem_append.mp hx with hx | hx
      · simp [h2] at hx
      · exact hw3 x hx
    · have hf2 : findEntry (classifyStep s kv).1 k = some e := by
        rw [classifyStep_findEntry_ne hk, hf]
      obtain ⟨e3, hf3, hv3, hs3, hw3⟩ := ih hf2 hs
      refine ⟨e3, hf3, hv3, hs3, ?_⟩
      intro x hx
      rcases List.mem_append.mp hx with hx | hx
      · have hxx : (classifyStep s kv).2 = some x := by
          cases hcs : (classifyStep s kv).2 with
          | none => simp [hcs] at hx
          | some y =>
            simp [hcs] at hx
            simp [hcs, hx]
        rw [classifyStep_snd_eq hxx]
        exact hk
      · exact hw3 x hx

theorem applyTranslationKey_findEntry_ne {english errors : List (String × String)}
    {s : List Entry} {kv : String × Option String} {k : String} (h : kv.1 ≠ k) :
    findEntry (applyTranslationKey english errors s kv) k = findEntry s k := by
  unfold applyTranslationKey
  by_cases hex : (findEntry s kv.1).isSome = true
  · rw [if_pos hex]
    rw [findEntry_map_of_name]
    · cases hf : findEntry s k with
      | none => rfl
      | some e =>
        have hn := findEntry_eq_name hf
        have hne : ¬(e.name = kv.1) := by
          rw [hn]
          exact fun hc => h hc.symm
        simp [hne]
    · intro e
      by_cases he : e.name = kv.1
      · simp [he, updateExisting_name]
      · simp [he]
  · rw [if_neg hex]
    cases hf : findEntry s k with
    | some e => exact findEntry_append_some _ hf
    | none =>
      rw [findEntry_append_none _ hf]
      have : ¬((newMissingEntry english kv.1 kv.2).name = k) := by
        rw [newMissingEntry_name]
        exact h
      simp [findEntry, this]

theorem processTranslations_findEntry_ne {english errors : List (String × String)}
    {tr : List (String × Option String)} {k : String}
    (h : ∀ x ∈ tr, x.1 ≠ k) (s : List Entry) :
    findEntry (processTranslations english errors s tr) k = findEntry s k := by
  induction tr generalizing s with
  | nil => rfl
  | cons kv rest ih =>
    have h1 : kv.1 ≠ k := h kv (List.mem_cons_self kv rest)
    have h2 : ∀ x ∈ rest, x.1 ≠ k := fun x hx => h x (List.mem_cons_of_mem kv hx)
    show findEntry (processTranslations english errors
      (applyTranslationKey english errors s kv) rest) k = findEntry s k
    rw [ih h2, applyTranslationKey_findEntry_ne h1]

theorem sweepEntry_gcs_some {english : List (String × String)} {b : Bool}
    {e : Entry} {s0 : String} (hg : get_comment_status e.comment = some s0)
    (hn : ¬(e.name = "AppName" ∨ e.name ∈ forcedUnitKeys)) :
    sweepEntry english b e = e := by
  unfold sweepEntry
  rw [if_neg hn, hg]

theorem sweepEntry_complete {english : List (String × String)} {b : Bool}
    {e : Entry} (h : get_comment_status e.comment = some "status:complete") :
    get_comment_status (sweepEntry english b e).comment
      = some "status:complete" := by
  unfold sweepEntry
  by_cases hn : e.name = "AppName" ∨ e.name ∈ forcedUnitKeys
  · rw [if_pos hn]
    exact gcs_complete
  · rw [if_neg hn, h]
    exact h

theorem update_findEntry_frame {errors : List (String × String)}
    {tr : List (String × Option String)} {k : String}
    (english : List (String × String)) (b : Bool) (s : List Entry)
    (h : ∀ x ∈ tr, x.1 ≠ k) :
    findEntry (update_resw_file s tr errors english b) k
      = (findEntry s k).map (sweepEntry english b) := by
  unfold update_resw_file
  rw [findEntry_map_of_name (fun e => sweepEntry_name english b e),
      processTranslations_findEntry_ne h s]

theorem update_value_frame {errors : List (String × String)}
    {tr : List (String × Option String)} {k : String}
    (english : List (String × String)) (b : Bool) (s : List Entry)
    (h : ∀ x ∈ tr, x.1 ≠ k) :
    valueOf (update_resw_file s tr errors english b) k = valueOf s k := by
  unfold valueOf
  rw [update_findEntry_frame english b s h]
  cases findEntry s k with
  | none => rfl
  | some e => simp [sweepEntry_value]

theorem update_status_complete_frame {errors : List (String × String)}
    {tr : List (String × Option String)} {k : String}
    (english : List (String × String)) (b : Bool) (s : List Entry)
    (h : ∀ x ∈ tr, x.1 ≠ k)
    (hc : statusOf s k = some "status:complete") :
    statusOf (update_resw_file s tr errors english b) k
      = some "status:complete" := by
  unfold statusOf at hc ⊢
  rw [update_findEntry_frame english b s h]
  cases hf : findEntry s k with
  | none => rw [hf] at hc; simp at hc
  | some e =>
    rw [hf] at hc
    have hc2 : get_comment_status e.comment = some "status:complete" := hc
    show get_comment_status (sweepEntry english b e).comment
      = some "status:complete"
    exact sweepEntry_complete hc2

theorem update_fixed_frame {errors : List (String × String)}
    {tr : List (String × Option String)} {k : String} {e : Entry} {s0 : String}
    (english : List (String × String)) (b : Bool) (s : List Entry)
    (h : ∀ x ∈ tr, x.1 ≠ k)
    (hf : findEntry s k = some e)
    (hg : get_comment_status e.comment = some s0)
    (hn : ¬(e.name = "AppName" ∨ e.name ∈ forcedUnitKeys)) :
    findEntry (update_resw_file s tr errors english b) k = some e := by
  rw [update_findEntry_frame english b s h, hf]
  simp [sweepEntry_gcs_some hg hn]

theorem recordSuccess_fst (k t v : String) : (recordSuccess k t v).1.1 = k := by
  unfold recordSuccess
  split
  all_goals rfl

theorem flushState_cases (english : List (String × String)) (total i : Nat)
    (store : List Entry) (pend : List (String × Option String))
    (pendErr : List (String × String)) :
    flushState english total i store pend pendErr
        = (update_resw_file store pend pendErr english false, [], []) ∨
      flushState english total i store pend pendErr = (store, pend, pendErr) := by
  unfold flushState
  split
  · exact Or.inl rfl
  · exact Or.inr rfl

theorem mem_append_one_ne {α : Type} {P : α → Prop} {l : List α} {a : α}
    (hl : ∀ x ∈ l, P x) (ha : P a) : ∀ x ∈ l ++ [a], P x := by
  intro x hx
  rcases List.mem_append.mp hx with hx | hx
  · exact hl x hx
  · simp at hx
    rw [hx]
    exact ha

theorem translateLoop_value_frame (english : List (String × String))
    (oracle : Nat → LoopOutcome) (total : Nat) (k : String) :
    ∀ (items : List (String × String)) (i : Nat) (store : List Entry)
      (pend : List (String × Option String)) (pendErr : List (String × String)),
      (∀ x ∈ items, x.1 ≠ k) → (∀ x ∈ pend, x.1 ≠ k) →
      valueOf (translateLoop english oracle total items i store pend pendErr) k
        = valueOf store k := by
  intro items
  induction items with
  | nil =>
    intro i store pend pendErr _ _
    rfl
  | cons kv rest ih =>
    intro i store pend pendErr hitems hpend
    have hk : kv.1 ≠ k := hitems kv (List.mem_cons_self kv rest)
    have hrest : ∀ x ∈ rest, x.1 ≠ k :=
      fun x hx => hitems x (List.mem_cons_of_mem kv hx)
    cases ho : oracle i with
    | invalidLang =>
      simp only [translateLoop, ho]
      have hrestmap : ∀ x ∈ rest.map
          (fun p : String × String => (p.1, (none : Option String))), x.1 ≠ k := by
        intro x hx
        rcases List.mem_map.mp hx with ⟨p, hp, hpx⟩
        rw [← hpx]
        exact hrest p hp
      have hone : ∀ x ∈ [(kv.1, (none : Option String))], x.1 ≠ k := by
        intro x hx
        simp at hx
        rw [hx]
        exact hk
      rw [update_value_frame _ _ _ hrestmap, update_value_frame _ _ _ hone]
      split
      · rw [update_value_frame _ _ _ hpend]
      · rfl
    | failed =>
      simp only [translateLoop, ho]
      have hp1 : ∀ x ∈ pend ++ [(kv.1, (none : Option String))], x.1 ≠ k :=
        mem_append_one_ne hpend hk
      rcases flushState_cases english total i store
          (pend ++ [(kv.1, none)])
          (pendErr ++ [(kv.1, "Translation service returned None")]) with hfs | hfs
      · rw [hfs]
        rw [ih (i + 1) _ _ _ hrest (by intro x hx; simp at hx)]
        exact update_value_frame _ _ _ hp1
      · rw [hfs]
        exact ih (i + 1) _ _ _ hrest hp1
    | success t =>
      simp only [translateLoop, ho]
      have hp1 : ∀ x ∈ pend ++ [(recordSuccess kv.1 t kv.2).1], x.1 ≠ k := by
        apply mem_append_one_ne hpend
        rw [recordSuccess_fst]
        exact hk
      rcases flushState_cases english total i store
          (pend ++ [(recordSuccess kv.1 t kv.2).1])
          (pendErr ++ (recordSuccess kv.1 t kv.2).2.toList) with hfs | hfs
      · rw [hfs]
        rw [ih (i + 1) _ _ _ hrest (by intro x hx; simp at hx)]
        exact update_value_frame _ _ _ hp1
      · rw [hfs]
        exact ih (i + 1) _ _ _ hrest hp1

theorem translateLoop_complete_frame (english : List (String × String))
    (oracle : Nat → LoopOutcome) (total : Nat) (k : String) :
    ∀ (items : List (String × String)) (i : Nat) (store : List Entry)
      (pend : List (String × Option String)) (pendErr : List (String × String)),
      (∀ x ∈ items, x.1 ≠ k) → (∀ x ∈ pend, x.1 ≠ k) →
      statusOf store k = some "status:complete" →
      statusOf (translateLoop english oracle total items i store pend pendErr) k
        = some "status:complete" := by
  intro items
  induction items with
  | nil =>
    intro i store pend pendErr _ _ hc
    exact hc
  | cons kv rest ih =>
    intro i store pend pendErr hitems hpend hc
    have hk : kv.1 ≠ k := hitems kv (List.mem_cons_self kv rest)
    have hrest : ∀ x ∈ rest, x.1 ≠ k :=
      fun x hx => hitems x (List.mem_cons_of_mem kv hx)
    cases ho : oracle i with
    | invalidLang =>
      simp only [translateLoop, ho]
      have hrestmap : ∀ x ∈ rest.map
          (fun p : String × String => (p.1, (none : Option String))), x.1 ≠ k := by
        intro x hx
        rcases List.mem_map.mp hx with ⟨p, hp, hpx⟩
        rw [← hpx]
        exact hrest p hp
      have hone : ∀ x ∈ [(kv.1, (none : Option String))], x.1 ≠ k := by
        intro x hx
        simp at hx
        rw [hx]
        exact hk
      apply update_status_complete_frame _ _ _ hrestmap
      apply update_status_complete_frame _ _ _ hone
      split
      · exact update_status_complete_frame _ _ _ hpend hc
      · exact hc
    | failed =>
      simp only [translateLoop, ho]
      have hp1 : ∀ x ∈ pend ++ [(kv.1, (none : Option String))], x.1 ≠ k :=
        mem_append_one_ne hpend hk
      rcases flushState_cases english total i store
          (pend ++ [(kv.1, none)])
          (pendErr ++ [(kv.1, "Translation service returned None")]) with hfs | hfs
      · rw [hfs]
        exact ih (i + 1) _ _ _ hrest (by intro x hx; simp at hx)
          (update_status_complete_frame _ _ _ hp1 hc)
      · rw [hfs]
        exact ih (i + 1) _ _ _ hrest hp1 hc
    | success t =>
      simp only [translateLoop, ho]
      have hp1 : ∀ x ∈ pend ++ [(recordSuccess kv.1 t kv.2).1], x.1 ≠ k := by
        apply mem_append_one_ne hpend
        rw [recordSuccess_fst]
        exact hk
      rcases flushState_cases english total i store
          (pend ++ [(recordSuccess kv.1 t kv.2).1])
          (pendErr ++ (recordSuccess kv.1 t kv.2).2.toList) with hfs | hfs
      · rw [hfs]
        exact ih (i + 1) _ _ _ hrest (by intro x hx; simp at hx)
          (update_status_complete_frame _ _ _ hp1 hc)
      · rw [hfs]
        exact ih (i + 1) _ _ _ hrest hp1 hc

theorem translateLoop_fixed_frame (english : List (String × String))
    (oracle : Nat → LoopOutcome) (total : Nat) (k : String) (e : Entry)
    (s0 : String) (hg : get_comment_status e.comment = some s0)
    (hn : ¬(e.name = "AppName" ∨ e.name ∈ forcedUnitKeys)) :
    ∀ (items : List (String × String)) (i : Nat) (store : List Entry)
      (pend : List (String × Option String)) (pendErr : List (String × String)),
      (∀ x ∈ items, x.1 ≠ k) → (∀ x ∈ pend, x.1 ≠ k) →
      findEntry store k = some e →
      findEntry (translateLoop english oracle total items i store pend pendErr) k
        = some e := by
  intro items
  induction items with
  | nil =>
    intro i store pend pendErr _ _ hc
    exact hc
  | cons kv rest ih =>
    intro i store pend pendErr hitems hpend hc
    have hk : kv.1 ≠ k := hitems kv (List.mem_cons_self kv rest)
    have hrest : ∀ x ∈ rest, x.1 ≠ k :=
      fun x hx => hitems x (List.mem_cons_of_mem kv hx)
    cases ho : oracle i with
    | invalidLang =>
      simp only [translateLoop, ho]
      have hrestmap : ∀ x ∈ rest.map
          (fun p : String × String => (p.1, (none : Option String))), x.1 ≠ k := by
        intro x hx
        rcases List.mem_map.mp hx with ⟨p, hp, hpx⟩
        rw [← hpx]
        exact hrest p hp
      have hone : ∀ x ∈ [(kv.1, (none : Option String))], x.1 ≠ k := by
        intro x hx
        simp at hx
        rw [hx]
        exact hk
      apply update_fixed_frame _ _ _ hrestmap _ hg hn
      apply update_fixed_frame _ _ _ hone _ hg hn
      split
      · exact update_fixed_frame _ _ _ hpend hc hg hn
      · exact hc
    | failed =>
      simp only [translateLoop, ho]
      have hp1 : ∀ x ∈ pend ++ [(kv.1, (none : Option String))], x.1 ≠ k :=
        mem_append_one_ne hpend hk
      rcases flushState_cases english total i store
          (pend ++ [(kv.1, none)])
          (pendErr ++ [(kv.1, "Translation service returned None")]) with hfs | hfs
      · rw [hfs]
        exact ih (i + 1) _ _ _ hrest (by intro x hx; simp at hx)
          (update_fixed_frame _ _ _ hp1 hc hg hn)
      · rw [hfs]
        exact ih (i + 1) _ _ _ hrest hp1 hc
    | success t =>
      simp only [translateLoop, ho]
      have hp1 : ∀ x ∈ pend ++ [(recordSuccess kv.1 t kv.2).1], x.1 ≠ k := by
        apply mem_append_one_ne hpend
        rw [recordSuccess_fst]
        exact hk
      rcases flushState_cases english total i store
          (pend ++ [(recordSuccess kv.1 t kv.2).1])
          (pendErr ++ (recordSuccess kv.1 t kv.2).2.toList) with hfs | hfs
      · rw [hfs]
        exact ih (i + 1) _ _ _ hrest (by intro x hx; simp at hx)
          (update_fixed_frame _ _ _ hp1 hc hg hn)
      · rw [hfs]
        exact ih (i + 1) _ _ _ hrest hp1 hc

theorem markUnsupported_findEntry_frame {english : List (String × String)}
    {workKeys : List String} {k : String} (s : List Entry)
    (hk : ∀ w ∈ workKeys, w ≠ k) :
    findEntry (s.map (markUnsupportedEntry english workKeys)) k
      = findEntry s k := by
  rw [findEntry_map_of_name (markUnsupportedEntry_name english workKeys)]
  cases hf : findEntry s k with
  | none => rfl
  | some e =>
    have hn := findEntry_eq_name hf
    have hmem : e.name ∉ workKeys := by
      intro hcmem
      exact (hk _ hcmem) hn
    simp [markUnsupportedEntry, hmem]

theorem workKeys_ne {r2 : List (String × String)} {k : String}
    (hw : ∀ x ∈ r2, x.1 ≠ k) : ∀ w ∈ r2.map Prod.fst, w ≠ k := by
  intro w hwm
  rcases List.mem_map.mp hwm with ⟨x, hx, hxw⟩
  rw [← hxw]
  exact hw x hx

theorem run_tail_value (english : List (String × String)) (store : List Entry)
    (oracle : Nat → LoopOutcome) (sup : Bool) (k : String)
    (hw : ∀ x ∈ (find_untranslated_entries english
      (update_resw_file store [] [] english false)).2, x.1 ≠ k) :
    valueOf (runLocale english store oracle sup) k
      = valueOf (find_untranslated_entries english
          (update_resw_file store [] [] english false)).1 k := by
  simp only [runLocale]
  split
  · rfl
  · split
    · exact translateLoop_value_frame english oracle _ k _ 1 _ [] [] hw
        (by intro x hx; simp at hx)
    · unfold valueOf
      rw [markUnsupported_findEntry_frame _ (workKeys_ne hw)]

theorem run_tail_complete (english : List (String × String)) (store : List Entry)
    (oracle : Nat → LoopOutcome) (sup : Bool) (k : String)
    (hw : ∀ x ∈ (find_untranslated_entries english
      (update_resw_file store [] [] english false)).2, x.1 ≠ k)
    (hst : statusOf (find_untranslated_entries english
      (update_resw_file store [] [] english false)).1 k
        = some "status:complete") :
    statusOf (runLocale english store oracle sup) k
      = some "status:complete" := by
  simp only [runLocale]
  split
  · exact hst
  · split
    · exact translateLoop_complete_frame english oracle _ k _ 1 _ [] [] hw
        (by intro x hx; simp at hx) hst
    · unfold statusOf
      rw [markUnsupported_findEntry_frame _ (workKeys_ne hw)]
      exact hst

theorem run_tail_fixed (english : List (String × String)) (store : List Entry)
    (oracle : Nat → LoopOutcome) (sup : Bool) (k : String) (e : Entry)
    (s0 : String) (hg : get_comment_status e.comment = some s0)
    (hn : ¬(e.name = "AppName" ∨ e.name ∈ forcedUnitKeys))
    (hw : ∀ x ∈ (find_untranslated_entries english
      (update_resw_file store [] [] english false)).2, x.1 ≠ k)
    (hf : findEntry (find_untranslated_entries english
      (update_resw_file store [] [] english false)).1 k = some e) :
    findEntry (runLocale english store oracle sup) k = some e := by
  simp only [runLocale]
  split
  · exact hf
  · split
    · exact translateLoop_fixed_frame english oracle _ k e s0 hg hn _ 1 _ [] [] hw
        (by intro x hx; simp at hx) hf
    · rw [markUnsupported_findEntry_frame _ (workKeys_ne hw)]
      exact hf

theorem lookupVal_split {l : List (String × String)} {k v : String}
    (h : lookupVal l k = some v) :
    ∃ l1 l2, l = l1 ++ (k, v) :: l2 ∧ k ∉ l1.map Prod.fst := by
  induction l with
  | nil => simp [lookupVal] at h
  | cons kv rest ih =>
    by_cases hk : kv.1 = k
    · rw [lookupVal, if_pos hk] at h
      have hv : kv.2 = v := by
        injection h
      refine ⟨[], rest, ?_, by simp⟩
      rw [← hk, ← hv]
      rfl
    · rw [lookupVal, if_neg hk] at h
      obtain ⟨l1, l2, hll, hnk⟩ := ih h
      refine ⟨kv :: l1, l2, by rw [hll]; rfl, ?_⟩
      simp only [List.map_cons, List.mem_cons]
      intro hc
      rcases hc with hc | hc
      · exact hk hc.symm
      · exact hnk hc

theorem lookupVal_none_not_mem {l : List (String × String)} {k : String}
    (h : lookupVal l k = none) : k ∉ l.map Prod.fst := by
  induction l with
  | nil => simp
  | cons kv rest ih =>
    by_cases hk : kv.1 = k
    · rw [lookupVal, if_pos hk] at h
      simp at h
    · rw [lookupVal, if_neg hk] at h
      simp only [List.map_cons, List.mem_cons]
      intro hc
      rcases hc with hc | hc
      · exact hk hc.symm
      · exact ih h hc

theorem find_untranslated_append (l1 l2 : List (String × String))
    (s : List Entry) :
    find_untranslated_entries (l1 ++ l2) s =
      ((find_untranslated_entries l2 (find_untranslated_entries l1 s).1).1,
       (find_untranslated_entries l1 s).2 ++
         (find_untranslated_entries l2 (find_untranslated_entries l1 s).1).2) := by
  induction l1 generalizing s with
  | nil => simp [find_untranslated_entries]
  | cons kv rest ih =>
    rw [List.cons_append, find_untranslated_cons, ih, find_untranslated_cons]
    rw [List.append_assoc]

theorem classify_split_complete {l1 l2 : List (String × String)} {k ev : String}
    {s : List Entry}
    (hl1 : k ∉ l1.map Prod.fst) (hl2 : k ∉ l2.map Prod.fst)
    (hnone : (classifyStep (find_untranslated_entries l1 s).1 (k, ev)).2 = none)
    (hfe2 : ∃ e2, findEntry
        (classifyStep (find_untranslated_entries l1 s).1 (k, ev)).1 k = some e2 ∧
      get_comment_status e2.comment = some "status:complete") :
    statusOf (find_untranslated_entries (l1 ++ (k, ev) :: l2) s).1 k
        = some "status:complete" ∧
      ∀ x ∈ (find_untranslated_entries (l1 ++ (k, ev) :: l2) s).2, x.1 ≠ k := by
  obtain ⟨e2, hfe2, hg2⟩ := hfe2
  obtain ⟨hfr1, hit1⟩ := find_untranslated_frame s hl1
  obtain ⟨hfr2, hit2⟩ := find_untranslated_frame
    (classifyStep (find_untranslated_entries l1 s).1 (k, ev)).1 hl2
  rw [find_untranslated_append, find_untranslated_cons]
  constructor
  · unfold statusOf
    rw [hfr2, hfe2]
    exact hg2
  · intro x hx
    rcases List.mem_append.mp hx with hx | hx
    · exact hit1 x hx
    · rcases List.mem_append.mp hx with hx | hx
      · rw [hnone] at hx
        simp at hx
      · exact hit2 x hx

theorem sweepEntry_comment_cases (english : List (String × String)) (b : Bool)
    (e : Entry) :
    (sweepEntry english b e).comment = e.comment ∨
      (sweepEntry english b e).comment = some "status:complete" ∨
      (sweepEntry english b e).comment = some "status:incomplete" := by
  unfold sweepEntry
  repeat' split
  all_goals simp

theorem sweepEntry_not_perm {english : List (String × String)} {b : Bool}
    {e : Entry}
    (h : statusTruthyStarts (get_comment_status e.comment)
      "status:error:permanent" = false) :
    statusTruthyStarts (get_comment_status (sweepEntry english b e).comment)
      "status:error:permanent" = false := by
  rcases sweepEntry_comment_cases english b e with hc | hc | hc <;> rw [hc]
  · exact h
  · decide
  · decide

/-- Claim C4: for every entry whose status at classification time is
complete or error-permanent, the value is unchanged at the end of the run
and the entry is never enqueued for translation.  Classification time is
the state after the initial comment-backfilling update_resw_file call of
main; SkipStatus states the status condition exactly as the script tests
it. -/
theorem c4_complete_permanent_value_preserved
    (english : List (String × String)) (store : List Entry)
    (oracle : Nat → LoopOutcome) (sup : Bool) (k : String) (e : Entry)
    (h1 : findEntry (update_resw_file store [] [] english false) k = some e)
    (h2 : SkipStatus (get_comment_status e.comment) = true) :
    valueOf (runLocale english store oracle sup) k = valueOf store k ∧
      ∀ x ∈ (find_untranslated_entries english
        (update_resw_file store [] [] english false)).2, x.1 ≠ k := by
  obtain ⟨e2, hfe2, hv2, hs2, hw⟩ := classify_skip_all english h1 h2
  refine ⟨?_, hw⟩
  rw [run_tail_value english store oracle sup k hw]
  unfold valueOf
  rw [hfe2]
  have hframe : findEntry (update_resw_file store [] [] english false) k
      = (findEntry store k).map (sweepEntry english false) :=
    update_findEntry_frame english false store (by intro x hx; simp at hx)
  rw [hframe] at h1
  cases hf0 : findEntry store k with
  | none =>
    rw [hf0] at h1
    simp at h1
  | some e0 =>
    rw [hf0] at h1
    have he : sweepEntry english false e0 = e := Option.some.inj h1
    show some e2.value = some e0.value
    rw [hv2, ← he, sweepEntry_value]

/-- Claim C4 witness: a concrete divergent entry marked status:complete
keeps its value through a run in which every translation call fails. -/
theorem c4_witness :
    findEntry (update_resw_file [⟨"Greeting", "Hola", some "status:complete"⟩]
        [] [] [("Greeting", "Hello")] false) "Greeting"
      = some ⟨"Greeting", "Hola", some "status:complete"⟩ ∧
    SkipStatus (get_comment_status (some "status:complete")) = true ∧
    valueOf (runLocale [("Greeting", "Hello")]
        [⟨"Greeting", "Hola", some "status:complete"⟩]
        (fun _ => LoopOutcome.failed) true) "Greeting"
      = valueOf [⟨"Greeting", "Hola", some "status:complete"⟩] "Greeting" :=
  ⟨by decide, by decide,
    (c4_complete_permanent_value_preserved [("Greeting", "Hello")]
      [⟨"Greeting", "Hola", some "status:complete"⟩]
      (fun _ => LoopOutcome.failed) true "Greeting"
      ⟨"Greeting", "Hola", some "status:complete"⟩
      (by decide) (by decide)).1⟩

/-- Claim C1 counterexample: an entry whose value (Bonjour) differs from
the reference value (Hello) but whose stored status is error-permanent
keeps status error-permanent after a full run, so the run does not always
produce status complete for divergent entries. -/
theorem c1_counterexample :
    statusOf (runLocale [("K", "Hello")]
        [⟨"K", "Bonjour", some "status:error:permanent"⟩]
        (fun _ => LoopOutcome.failed) true) "K"
      = some "status:error:permanent" ∧
    valueOf [⟨"K", "Bonjour", some "status:error:permanent"⟩] "K"
      = some "Bonjour" ∧
    ("Bonjour" = "Hello" → False) ∧
    (some "status:error:permanent" = some "status:complete" → False) := by
  decide

/-- Claim C1 (amended): for every entry present in the target store whose
value differs from the reference value and whose prior stored status is
not error-permanent, the status resulting from a run is complete and the
entry is never enqueued; a prior error-permanent divergent entry instead
keeps its status (see the counterexample). -/
theorem c1_amended_divergence (english : List (String × String))
    (store : List Entry) (oracle : Nat → LoopOutcome) (sup : Bool)
    (k ev : String) (e : Entry)
    (hnd : (english.map Prod.fst).Nodup)
    (hev : lookupVal english k = some ev)
    (h0 : findEntry store k = some e)
    (hdiv : e.value ≠ ev)
    (hperm : statusTruthyStarts (get_comment_status e.comment)
      "status:error:permanent" = false) :
    statusOf (runLocale english store oracle sup) k = some "status:complete" ∧
      ∀ x ∈ (find_untranslated_entries english
        (update_resw_file store [] [] english false)).2, x.1 ≠ k := by
  have hframe : findEntry (update_resw_file store [] [] english false) k
      = (findEntry store k).map (sweepEntry english false) :=
    update_findEntry_frame english false store (by intro x hx; simp at hx)
  rw [h0] at hframe
  obtain ⟨l1, l2, hsplit, hl1⟩ := lookupVal_split hev
  have hl2 : k ∉ l2.map Prod.fst := by
    rw [hsplit, List.map_append, List.map_cons] at hnd
    exact (List.nodup_cons.mp hnd.of_append_right).1
  subst hsplit
  obtain ⟨hfr1, hit1⟩ :=
    find_untranslated_frame (update_resw_file store [] []
      (l1 ++ (k, ev) :: l2) false) hl1
  have hfe1 : findEntry (find_untranslated_entries l1
      (update_resw_file store [] [] (l1 ++ (k, ev) :: l2) false)).1 k
      = some (sweepEntry (l1 ++ (k, ev) :: l2) false e) := by
    rw [hfr1]
    exact hframe
  have hstep := @classifyStep_diverge _ (k, ev) _ hfe1
    (by rw [sweepEntry_value]; exact hdiv) (sweepEntry_not_perm hperm)
  obtain ⟨hnone, e2, hfe2, hv2, hg2⟩ := hstep
  have hmain := classify_split_complete hl1 hl2 hnone ⟨e2, hfe2, hg2⟩
  exact ⟨run_tail_complete _ store oracle sup k hmain.2 hmain.1, hmain.2⟩

/-- Claim C1 amended witness: a divergent entry with a prior transient
error status ends a run with status complete and is never enqueued. -/
theorem c1_amended_witness :
    lookupVal [("K", "Hello")] "K" = some "Hello" ∧
    findEntry [⟨"K", "Bonjour", some "status:error:x"⟩] "K"
      = some ⟨"K", "Bonjour", some "status:error:x"⟩ ∧
    statusOf (runLocale [("K", "Hello")]
        [⟨"K", "Bonjour", some "status:error:x"⟩]
        (fun _ => LoopOutcome.failed) true) "K" = some "status:complete" :=
  ⟨by decide, by decide,
    (c1_amended_divergence [("K", "Hello")]
      [⟨"K", "Bonjour", some "status:error:x"⟩]
      (fun _ => LoopOutcome.failed) true "K" "Hello"
      ⟨"K", "Bonjour", some "status:error:x"⟩
      (by decide) (by decide) (by decide) (by decide) (by decide)).1⟩

/-- Claim C7: a key of the Technical Key Set that is present in the
reference store and in the target store ends every run with status
complete and is never enqueued for translation, whatever its value and
prior status. -/
theorem c7_technical_key_immunity (english : List (String × String))
    (store : List Entry) (oracle : Nat → LoopOutcome) (sup : Bool)
    (k ev : String) (e : Entry)
    (hnd : (english.map Prod.fst).Nodup)
    (htech : k ∈ TECHNICAL_KEYS)
    (hev : lookupVal english k = some ev)
    (h0 : findEntry store k = some e) :
    statusOf (runLocale english store oracle sup) k = some "status:complete" ∧
      ∀ x ∈ (find_untranslated_entries english
        (update_resw_file store [] [] english false)).2, x.1 ≠ k := by
  have hframe : findEntry (update_resw_file store [] [] english false) k
      = (findEntry store k).map (sweepEntry english false) :=
    update_findEntry_frame english false store (by intro x hx; simp at hx)
  rw [h0] at hframe
  obtain ⟨l1, l2, hsplit, hl1⟩ := lookupVal_split hev
  have hl2 : k ∉ l2.map Prod.fst := by
    rw [hsplit, List.map_append, List.map_cons] at hnd
    exact (List.nodup_cons.mp hnd.of_append_right).1
  subst hsplit
  obtain ⟨hfr1, hit1⟩ :=
    find_untranslated_frame (update_resw_file store [] []
      (l1 ++ (k, ev) :: l2) false) hl1
  have hfe1 : findEntry (find_untranslated_entries l1
      (update_resw_file store [] [] (l1 ++ (k, ev) :: l2) false)).1 k
      = some (sweepEntry (l1 ++ (k, ev) :: l2) false e) := by
    rw [hfr1]
    exact hframe
  have hstep : classifyStep (find_untranslated_entries l1
      (update_resw_file store [] [] (l1 ++ (k, ev) :: l2) false)).1 (k, ev)
      = (setStatus (find_untranslated_entries l1
          (update_resw_file store [] [] (l1 ++ (k, ev) :: l2) false)).1 k
          "status:complete", none) :=
    classifyStep_forced (Or.inl htech)
  have hnone : (classifyStep (find_untranslated_entries l1
      (update_resw_file store [] [] (l1 ++ (k, ev) :: l2) false)).1 (k, ev)).2
      = none := by
    rw [hstep]
  have hfe2 : ∃ e2, findEntry (classifyStep (find_untranslated_entries l1
      (update_resw_file store [] [] (l1 ++ (k, ev) :: l2) false)).1 (k, ev)).1 k
      = some e2 ∧ get_comment_status e2.comment = some "status:complete" := by
    rw [hstep]
    rw [findEntry_setStatus_self, hfe1]
    exact ⟨_, rfl, gcs_complete⟩
  have hmain := classify_split_complete hl1 hl2 hnone hfe2
  exact ⟨run_tail_complete _ store oracle sup k hmain.2 hmain.1, hmain.2⟩

/-- Claim C7 witness: AppName with a prior error-permanent status and a
value equal to the reference value still ends the run as complete and is
not enqueued. -/
theorem c7_witness :
    "AppName" ∈ TECHNICAL_KEYS ∧
    lookupVal [("AppName", "Grex")] "AppName" = some "Grex" ∧
    statusOf (runLocale [("AppName", "Grex")]
        [⟨"AppName", "Grex", some "status:error:permanent"⟩]
        (fun _ => LoopOutcome.failed) true) "AppName"
      = some "status:complete" :=
  ⟨by decide, by decide,
    (c7_technical_key_immunity [("AppName", "Grex")]
      [⟨"AppName", "Grex", some "status:error:permanent"⟩]
      (fun _ => LoopOutcome.failed) true "AppName" "Grex"
      ⟨"AppName", "Grex", some "status:error:permanent"⟩
      (by decide) (by decide) (by decide) (by decide)).1⟩

/-- Claim C9 counterexample: a key present only in the target store (the
reference store is empty here) starts with no status marker and ends the
run with marker status:incomplete, so the run does change the status
marker of such an entry. -/
theorem c9_counterexample :
    runLocale [] [⟨"X", "v", none⟩] (fun _ => LoopOutcome.failed) true
      = [⟨"X", "v", some "status:incomplete"⟩] ∧
    (statusOf [⟨"X", "v", none⟩] "X"
      = statusOf (runLocale [] [⟨"X", "v", none⟩]
          (fun _ => LoopOutcome.failed) true) "X" → False) := by
  decide

/-- Claim C9 (amended): a key present in the target store but absent from
the reference store is never enqueued and its value is never changed; its
status marker is also unchanged, except that an entry with no marker is
backfilled to status:incomplete by the completion sweep (the hard-coded
AppName/KB/MB/GB keys aside, which the sweep forces to complete). -/
theorem c9_amended_frame (english : List (String × String)) (store : List Entry)
    (oracle : Nat → LoopOutcome) (sup : Bool) (k : String) (e : Entry)
    (h0 : findEntry store k = some e)
    (habs : lookupVal english k = none)
    (hforced : ¬(k = "AppName" ∨ k ∈ forcedUnitKeys)) :
    findEntry (runLocale english store oracle sup) k
      = some (if get_comment_status e.comment = none
          then { e with comment := some "status:incomplete" } else e) ∧
      ∀ x ∈ (find_untranslated_entries english
        (update_resw_file store [] [] english false)).2, x.1 ≠ k := by
  have hname : e.name = k := findEntry_eq_name h0
  have hforcede : ¬(e.name = "AppName" ∨ e.name ∈ forcedUnitKeys) := by
    rw [hname]
    exact hforced
  have hsw : sweepEntry english false e =
      (if get_comment_status e.comment = none
        then { e with comment := some "status:incomplete" } else e) := by
    unfold sweepEntry
    rw [if_neg hforcede]
    cases hg : get_comment_status e.comment with
    | some s0 => simp [hg]
    | none => simp [hg, hname, habs]
  have hgsw : ∃ s0, get_comment_status (sweepEntry english false e).comment
      = some s0 := by
    by_cases hg : get_comment_status e.comment = none
    · rw [hsw, if_pos hg]
      exact ⟨_, gcs_incomplete⟩
    · rw [hsw, if_neg hg]
      cases hgg : get_comment_status e.comment with
      | none => exact absurd hgg hg
      | some s0 => exact ⟨s0, rfl⟩
  obtain ⟨s0, hgs⟩ := hgsw
  have hframe : findEntry (update_resw_file store [] [] english false) k
      = some (sweepEntry english false e) := by
    rw [update_findEntry_frame english false store
      (by intro x hx; simp at hx), h0]
    rfl
  have hkeys := lookupVal_none_not_mem habs
  obtain ⟨hfr, hit⟩ :=
    find_untranslated_frame (update_resw_file store [] [] english false) hkeys
  have hfc : findEntry (find_untranslated_entries english
      (update_resw_file store [] [] english false)).1 k
      = some (sweepEntry english false e) := by
    rw [hfr]
    exact hframe
  have hnsw : ¬((sweepEntry english false e).name = "AppName" ∨
      (sweepEntry english false e).name ∈ forcedUnitKeys) := by
    rw [sweepEntry_name]
    exact hforcede
  have hrun := run_tail_fixed english store oracle sup k _ s0 hgs hnsw hit hfc
  rw [hsw] at hrun
  exact ⟨hrun, hit⟩

/-- Claim C9 amended witness: a target-only key with no marker is
backfilled to status:incomplete, with name and value untouched, and is not
enqueued. -/
theorem c9_amended_witness :
    findEntry [⟨"B", "y", none⟩] "B" = some ⟨"B", "y", none⟩ ∧
    lookupVal [("A", "x")] "B" = none ∧
    findEntry (runLocale [("A", "x")] [⟨"B", "y", none⟩]
        (fun _ => LoopOutcome.failed) true) "B"
      = some (if get_comment_status (none : Option String) = none
          then { Entry.mk "B" "y" none with comment := some "status:incomplete" }
          else ⟨"B", "y", none⟩) :=
  ⟨by decide, by decide,
    (c9_amended_frame [("A", "x")] [⟨"B", "y", none⟩]
      (fun _ => LoopOutcome.failed) true "B" ⟨"B", "y", none⟩
      (by decide) (by decide) (by decide)).1⟩

/-- Claim C2 (code evaluation at the failing input): for a locale with one
work item whose entry has no prior status, an invalid-destination-language
signal from the Gateway on that item ends the run with the entry at
status:error:Invalid destination language.  That status does not start
with status:error:permanent and is not skipped by the classifier, so the
entry is not in the error-permanent state the claim (and the code comment
at the marking site) promises. -/
theorem c2_invalid_language_run_eval :
    runLocale [("K", "Hello")] [⟨"K", "Hello", none⟩]
        (fun _ => LoopOutcome.invalidLang) true
      = [⟨"K", "Hello", some "status:error:Invalid destination language"⟩] ∧
    statusStarts "status:error:Invalid destination language"
        "status:error:permanent" = false ∧
    SkipStatus (get_comment_status
        (some "status:error:Invalid destination language")) = false := by
  decide

/-- Claim C3 counterexample: an entry with a prior transient error status
whose reference value is exactly Tab fails translation again and ends with
status complete, not error-permanent. -/
theorem c3_counterexample :
    statusOf (runLocale [("K", "Tab")]
        [⟨"K", "Tab", some "status:error:boom"⟩]
        (fun _ => LoopOutcome.failed) true) "K" = some "status:complete" ∧
    statusTruthyStarts (get_comment_status (some "status:error:boom"))
        "status:error:" = true ∧
    (some "status:complete" = some "status:error:permanent" → False) := by
  decide

/-- Claim C3 (amended): an entry whose stored status starts with
status:error: and whose translation attempt fails again (a failure that is
not the same-as-English marker) becomes status:error:permanent, unless the
reference value is exactly Tab, in which case it becomes complete; in no
case does it return to a plain transient error status. -/
theorem c3_amended_two_strikes (english errors : List (String × String))
    (k : String) (e : Entry)
    (hval : e.value = (lookupVal english k).getD "")
    (herr : statusTruthyStarts (get_comment_status e.comment)
      "status:error:" = true)
    (hmsg : (lookupVal errors k).getD "Translation failed"
      ≠ "Translation same as English") :
    (updateExisting english errors k none e).comment =
      some (if (lookupVal english k).getD "" = "Tab"
        then "status:complete" else "status:error:permanent") := by
  unfold updateExisting
  rw [if_neg (fun hc => hc hval)]
  dsimp only
  rw [if_neg hmsg]
  by_cases h3 : (lookupVal english k).getD "" = "Tab"
  · rw [if_pos h3, if_pos h3]
  · rw [if_neg h3, if_neg h3, if_pos herr]

/-- Claim C3 amended witness: a concrete second consecutive failure on a
non-Tab entry escalates the transient error to error-permanent. -/
theorem c3_amended_witness :
    ("Hello" : String) = (lookupVal [("K", "Hello")] "K").getD "" ∧
    statusTruthyStarts (get_comment_status (some "status:error:x"))
      "status:error:" = true ∧
    (updateExisting [("K", "Hello")]
        [("K", "Translation service returned None")] "K" none
        ⟨"K", "Hello", some "status:error:x"⟩).comment =
      some (if (lookupVal [("K", "Hello")] "K").getD "" = "Tab"
        then "status:complete" else "status:error:permanent") :=
  ⟨by decide, by decide,
    c3_amended_two_strikes [("K", "Hello")]
      [("K", "Translation service returned None")] "K"
      ⟨"K", "Hello", some "status:error:x"⟩
      (by decide) (by decide) (by decide)⟩

/-- Claim C6 counterexample: the service returns a translation with a
trailing space, textually different from the input, yet the run treats it
as no translation needed: the entry is marked complete and its value is
left as the input, not overwritten by the returned text. -/
theorem c6_counterexample :
    runLocale [("K", "Hi")] [⟨"K", "Hi", none⟩]
        (fun _ => LoopOutcome.success "Hi ") true
      = [⟨"K", "Hi", some "status:complete"⟩] ∧
    ("Hi " = "Hi" → False) ∧
    pyStrip "Hi " = pyStrip "Hi" := by
  decide

/-- Claim C6 (amended): a returned translation is recorded as "Translation
same as English" exactly when it equals the input after stripping leading
and trailing whitespace (a case-sensitive but strip-insensitive test, not
an exact match), and update_resw_file maps that marker to status complete
for a value still equal to the reference value. -/
theorem c6_amended_strip_equality (k t v : String)
    (english errors : List (String × String)) (e : Entry) :
    (((recordSuccess k t v).1.2 = none ∧
        (recordSuccess k t v).2 = some (k, "Translation same as English")) ↔
      pyStrip t = pyStrip v) ∧
    (e.value = (lookupVal english k).getD "" →
      lookupVal errors k = some "Translation same as English" →
      (updateExisting english errors k none e).comment
        = some "status:complete") := by
  constructor
  · unfold recordSuccess
    by_cases h : pyStrip t = pyStrip v
    · rw [if_pos h]
      simp [h]
    · rw [if_neg h]
      simp [h]
  · intro hv herrs
    unfold updateExisting
    rw [if_neg (fun hc => hc hv)]
    dsimp only
    have hmsg : (lookupVal errors k).getD "Translation failed"
        = "Translation same as English" := by
      rw [herrs]
      rfl
    rw [if_pos hmsg]

/-- Claim C6 amended witness: a concrete trailing-space translation is
recorded as same-as-English and mapped to complete. -/
theorem c6_amended_witness :
    ((recordSuccess "K" "Hi " "Hi").1.2 = none ∧
      (recordSuccess "K" "Hi " "Hi").2
        = some ("K", "Translation same as English")) ∧
    (updateExisting [("K", "Hi")] [("K", "Translation same as English")]
        "K" none ⟨"K", "Hi", none⟩).comment = some "status:complete" :=
  ⟨(c6_amended_strip_equality "K" "Hi " "Hi" [] [] ⟨"K", "Hi", none⟩).1.mpr
      (by decide),
    (c6_amended_strip_equality "K" "Hi " "Hi" [("K", "Hi")]
      [("K", "Translation same as English")] ⟨"K", "Hi", none⟩).2
      (by decide) (by decide)⟩

/-- Claim C10: an entry whose reference value is exactly Tab ends a failed
translation attempt with status complete, on the normal failure path of
update_resw_file as well as on the unsupported-language marking path of
main, whatever the stored status and the recorded error message. -/
theorem c10_tab_complete (english errors : List (String × String))
    (workKeys : List String) (k : String) (e f : Entry)
    (h1 : (lookupVal english k).getD "" = "Tab")
    (h2 : f.name ∈ workKeys)
    (h3 : (lookupVal english f.name).getD "" = "Tab") :
    (updateExisting english errors k none e).comment
        = some "status:complete" ∧
      (markUnsupportedEntry english workKeys f).comment
        = some "status:complete" := by
  constructor
  · unfold updateExisting
    by_cases hval : e.value ≠ (lookupVal english k).getD ""
    · rw [if_pos hval]
    · rw [if_neg hval]
      dsimp only
      by_cases hmsg : (lookupVal errors k).getD "Translation failed"
          = "Translation same as English"
      · rw [if_pos hmsg]
      · rw [if_neg hmsg, if_pos h1]
  · unfold markUnsupportedEntry
    rw [if_pos h2]
    by_cases hval : f.value ≠ (lookupVal english f.name).getD ""
    · rw [if_pos hval]
    · rw [if_neg hval, if_pos h3]

/-- Claim C10 witness: a concrete Tab entry ends complete on both failure
paths. -/
theorem c10_witness :
    (lookupVal [("K", "Tab")] "K").getD "" = "Tab" ∧
    (updateExisting [("K", "Tab")]
        [("K", "Translation service returned None")] "K" none
        ⟨"K", "Tab", some "status:incomplete"⟩).comment
      = some "status:complete" ∧
    (markUnsupportedEntry [("K", "Tab")] ["K"]
        ⟨"K", "Tab", some "status:incomplete"⟩).comment
      = some "status:complete" := by
  refine ⟨by decide, ?_, ?_⟩
  · exact (c10_tab_complete [("K", "Tab")]
      [("K", "Translation service returned None")] ["K"] "K"
      ⟨"K", "Tab", some "status:incomplete"⟩
      ⟨"K", "Tab", some "status:incomplete"⟩
      (by decide) (by decide) (by decide)).1
  · exact (c10_tab_complete [("K", "Tab")]
      [("K", "Translation service returned None")] ["K"] "K"
      ⟨"K", "Tab", some "status:incomplete"⟩
      ⟨"K", "Tab", some "status:incomplete"⟩
      (by decide) (by decide) (by decide)).2

theorem entry_ext {e1 e2 : Entry} (hn : e1.name = e2.name)
    (hv : e1.value = e2.value) (hc : e1.comment = e2.comment) : e1 = e2 := by
  cases e1
  cases e2
  congr 1

theorem gcs_some_raw {c : Option String} {s0 : String}
    (h : get_comment_status c = some s0) : ∃ t, c = some t ∧ t ≠ "" := by
  cases c with
  | none => simp [get_comment_status] at h
  | some t =>
    by_cases ht : t = ""
    · subst ht
      rw [show get_comment_status (some "") = none from rfl] at h
      simp at h
    · exact ⟨t, rfl, ht⟩

theorem sweepEntry_fix_complete (english : List (String × String)) (b : Bool)
    (e : Entry) (h : e.comment = some "status:complete") :
    sweepEntry english b e = e := by
  by_cases hn : e.name = "AppName" ∨ e.name ∈ forcedUnitKeys
  · unfold sweepEntry
    rw [if_pos hn]
    exact entry_ext rfl rfl h.symm
  · have hg : get_comment_status e.comment = some "status:complete" := by
      rw [h]
      exact gcs_complete
    exact sweepEntry_gcs_some hg hn

theorem sweepEntry_gcs_none {english : List (String × String)} {b : Bool}
    {e : Entry} (hg : get_comment_status e.comment = none)
    (hn : ¬(e.name = "AppName" ∨ e.name ∈ forcedUnitKeys)) :
    (sweepEntry english b e).comment = some "status:complete" ∨
      (sweepEntry english b e).comment = some "status:incomplete" := by
  unfold sweepEntry
  rw [if_neg hn, hg]
  repeat' split
  all_goals simp_all

theorem sweepEntry_idem (english : List (String × String)) (b : Bool)
    (e : Entry) :
    sweepEntry english b (sweepEntry english b e) = sweepEntry english b e := by
  rcases sweepEntry_comment_cases english b e with hc | hc | hc
  · have h1 : sweepEntry english b e = e :=
      entry_ext (sweepEntry_name _ _ _) (sweepEntry_value _ _ _) hc
    rw [h1, h1]
  · exact sweepEntry_fix_complete english b _ hc
  · by_cases hn : e.name = "AppName" ∨ e.name ∈ forcedUnitKeys
    · have hcc : (sweepEntry english b e).comment = some "status:complete" := by
        unfold sweepEntry
        rw [if_pos hn]
      rw [hcc] at hc
      exact absurd hc (by decide)
    · have hg : get_comment_status (sweepEntry english b e).comment
          = some "status:incomplete" := by
        rw [hc]
        exact gcs_incomplete
      have hn2 : ¬((sweepEntry english b e).name = "AppName" ∨
          (sweepEntry english b e).name ∈ forcedUnitKeys) := by
        rw [sweepEntry_name]
        exact hn
      exact sweepEntry_gcs_some hg hn2

theorem sweepEntry_marker (english : List (String × String)) (b : Bool)
    (e : Entry) :
    ∃ t, (sweepEntry english b e).comment = some t ∧ t ≠ "" := by
  by_cases hn : e.name = "AppName" ∨ e.name ∈ forcedUnitKeys
  · refine ⟨"status:complete", ?_, by decide⟩
    unfold sweepEntry
    rw [if_pos hn]
  · cases hg : get_comment_status e.comment with
    | some s0 =>
      rw [sweepEntry_gcs_some hg hn]
      exact gcs_some_raw hg
    | none =>
      rcases sweepEntry_gcs_none hg hn with hc | hc
      · exact ⟨"status:complete", hc, by decide⟩
      · exact ⟨"status:incomplete", hc, by decide⟩

/-- Claim C8: the completion sweep (update_resw_file with no translations)
is idempotent, and after one sweep every entry of the store carries a
comment element with non-empty text; an entry with no usable marker is
backfilled (complete for the reference store, by the content-divergence
rule otherwise, as the sweepEntry definition states). -/
theorem c8_sweep_idempotent (english : List (String × String)) (b : Bool)
    (store : List Entry) :
    update_resw_file (update_resw_file store [] [] english b) [] [] english b
        = update_resw_file store [] [] english b ∧
      ∀ e ∈ update_resw_file store [] [] english b,
        ∃ t, e.comment = some t ∧ t ≠ "" := by
  constructor
  · show (store.map (sweepEntry english b)).map (sweepEntry english b)
      = store.map (sweepEntry english b)
    rw [List.map_map]
    apply List.map_congr_left
    intro e _
    exact sweepEntry_idem english b e
  · intro e he
    have he2 : e ∈ store.map (sweepEntry english b) := he
    rcases List.mem_map.mp he2 with ⟨a, _, ha⟩
    rw [← ha]
    exact sweepEntry_marker english b a

/-- Claim C8 witness: a concrete one-entry store with no marker is swept
to status:incomplete, the second sweep changes nothing, and the resulting
entry has a non-empty marker. -/
theorem c8_witness :
    update_resw_file (update_resw_file [⟨"K", "v", none⟩] [] []
        [("K", "v")] false) [] [] [("K", "v")] false
      = update_resw_file [⟨"K", "v", none⟩] [] [] [("K", "v")] false ∧
    ∃ t, (⟨"K", "v", some "status:incomplete"⟩ : Entry).comment
      = some t ∧ t ≠ "" :=
  ⟨(c8_sweep_idempotent [("K", "v")] false [⟨"K", "v", none⟩]).1,
   (c8_sweep_idempotent [("K", "v")] false [⟨"K", "v", none⟩]).2
     ⟨"K", "v", some "status:incomplete"⟩ (by decide)⟩

theorem range_mul_shift (attempt n : Nat) (h : 1 ≤ n) :
    (attempt + 1) * 2 ::
        (List.range (n - 1)).map (fun j => (attempt + 1 + j + 1) * 2)
      = (List.range n).map (fun j => (attempt + j + 1) * 2) := by
  have hn : n = (n - 1) + 1 := by omega
  conv_rhs => rw [hn, List.range_succ_eq_map, List.map_cons, List.map_map]
  refine congrArg₂ List.cons ?_ ?_
  · show (attempt + 1) * 2 = (attempt + 0 + 1) * 2
    omega
  · apply List.map_congr_left
    intro j _
    show (attempt + 1 + j + 1) * 2 = (attempt + (j + 1) + 1) * 2
    omega

theorem ttGo_spec_step (oracle : Nat → AttemptResult) (f attempt : Nat)
    (hretry : isRetryable (oracle attempt) = true)
    (hstep : ttGo oracle (f + 1) attempt
      = ⟨(ttGo oracle f (attempt + 1)).result,
         (ttGo oracle f (attempt + 1)).attempts + 1,
         (attempt + 1) * 2 :: (ttGo oracle f (attempt + 1)).waits⟩)
    (ih1 : 1 ≤ (ttGo oracle f (attempt + 1)).attempts)
    (ih2 : (ttGo oracle f (attempt + 1)).attempts ≤ f)
    (ih3 : (ttGo oracle f (attempt + 1)).waits =
      (List.range ((ttGo oracle f (attempt + 1)).attempts - 1)).map
        (fun j => (attempt + 1 + j + 1) * 2))
    (ih4 : ∀ j, j + 1 < (ttGo oracle f (attempt + 1)).attempts →
      isRetryable (oracle (attempt + 1 + j)) = true) :
    1 ≤ (ttGo oracle (f + 1) attempt).attempts ∧
      (ttGo oracle (f + 1) attempt).attempts ≤ f + 1 ∧
      (ttGo oracle (f + 1) attempt).waits =
        (List.range ((ttGo oracle (f + 1) attempt).attempts - 1)).map
          (fun j => (attempt + j + 1) * 2) ∧
      ∀ j, j + 1 < (ttGo oracle (f + 1) attempt).attempts →
        isRetryable (oracle (attempt + j)) = true := by
  rw [hstep]
  dsimp only
  refine ⟨by omega, by omega, ?_, ?_⟩
  · rw [ih3, Nat.add_sub_cancel]
    exact range_mul_shift attempt _ ih1
  · intro j hj
    cases j with
    | zero =>
      rw [Nat.add_zero]
      exact hretry
    | succ j2 =>
      rw [show attempt + (j2 + 1) = attempt + 1 + j2 from by omega]
      exact ih4 j2 (by omega)

theorem ttGo_spec (oracle : Nat → AttemptResult) :
    ∀ fuel attempt, 0 < fuel →
      1 ≤ (ttGo oracle fuel attempt).attempts ∧
        (ttGo oracle fuel attempt).attempts ≤ fuel ∧
        (ttGo oracle fuel attempt).waits =
          (List.range ((ttGo oracle fuel attempt).attempts - 1)).map
            (fun j => (attempt + j + 1) * 2) ∧
        ∀ j, j + 1 < (ttGo oracle fuel attempt).attempts →
          isRetryable (oracle (attempt + j)) = true := by
  intro fuel
  induction fuel with
  | zero =>
    intro attempt h
    exact absurd h (by omega)
  | succ f ih =>
    intro attempt _
    cases ho : oracle attempt with
    | ok t =>
      have hval : ttGo oracle (f + 1) attempt = ⟨.success t, 1, []⟩ := by
        simp only [ttGo, ho]
      rw [hval]
      dsimp only
      exact ⟨by omega, by omega, by simp, fun j hj => by omega⟩
    | attrError m =>
      by_cases hr : attrRetryable m = true
      · by_cases hf : f = 0
        · have hval : ttGo oracle (f + 1) attempt = ⟨.failure, 1, []⟩ := by
            subst hf
            simp only [ttGo, ho, hr, if_true]
          rw [hval]
          dsimp only
          exact ⟨by omega, by omega, by simp, fun j hj => by omega⟩
        · have hstep : ttGo oracle (f + 1) attempt
              = ⟨(ttGo oracle f (attempt + 1)).result,
                 (ttGo oracle f (attempt + 1)).attempts + 1,
                 (attempt + 1) * 2 :: (ttGo oracle f (attempt + 1)).waits⟩ := by
            simp only [ttGo, ho, hr, if_true, if_neg hf]
          obtain ⟨ih1, ih2, ih3, ih4⟩ := ih (attempt + 1) (Nat.pos_of_ne_zero hf)
          exact ttGo_spec_step oracle f attempt
            (by rw [ho]; simpa [isRetryable] using hr) hstep ih1 ih2 ih3 ih4
      · have hval : ttGo oracle (f + 1) attempt = ⟨.failure, 1, []⟩ := by
          simp only [ttGo, ho, hr, Bool.false_eq_true, if_false]
        rw [hval]
        dsimp only
        exact ⟨by omega, by omega, by simp, fun j hj => by omega⟩
    | otherError m =>
      by_cases hi : hasInvalidDest (asciiLower m) = true
      · have hval : ttGo oracle (f + 1) attempt = ⟨.invalidLang, 1, []⟩ := by
          simp only [ttGo, ho, hi, if_true]
        rw [hval]
        dsimp only
        exact ⟨by omega, by omega, by simp, fun j hj => by omega⟩
      · by_cases hr : hasRateIndicator (asciiLower m) = true
        · by_cases hf : f = 0
          · have hval : ttGo oracle (f + 1) attempt = ⟨.failure, 1, []⟩ := by
              subst hf
              simp only [ttGo, ho, hi, Bool.false_eq_true, if_false, hr, if_true]
            rw [hval]
            dsimp only
            exact ⟨by omega, by omega, by simp, fun j hj => by omega⟩
          · have hstep : ttGo oracle (f + 1) attempt
                = ⟨(ttGo oracle f (attempt + 1)).result,
                   (ttGo oracle f (attempt + 1)).attempts + 1,
                   (attempt + 1) * 2 :: (ttGo oracle f (attempt + 1)).waits⟩ := by
              simp only [ttGo, ho, hi, Bool.false_eq_true, if_false, hr,
                if_true, if_neg hf]
            obtain ⟨ih1, ih2, ih3, ih4⟩ := ih (attempt + 1) (Nat.pos_of_ne_zero hf)
            exact ttGo_spec_step oracle f attempt
              (by rw [ho]; simp [isRetryable, hi, hr]) hstep ih1 ih2 ih3 ih4
        · have hval : ttGo oracle (f + 1) attempt = ⟨.failure, 1, []⟩ := by
            simp only [ttGo, ho, hi, Bool.false_eq_true, if_false, hr]
          rw [hval]
          dsimp only
          exact ⟨by omega, by omega, by simp, fun j hj => by omega⟩

theorem ttGo_all_retry (oracle : Nat → AttemptResult) :
    ∀ fuel attempt, 0 < fuel →
      (∀ j, j < fuel → isRetryable (oracle (attempt + j)) = true) →
      ttGo oracle fuel attempt
        = ⟨.failure, fuel, (List.range (fuel - 1)).map
            (fun j => (attempt + j + 1) * 2)⟩ := by
  intro fuel
  induction fuel with
  | zero =>
    intro attempt h
    exact absurd h (by omega)
  | succ f ih =>
    intro attempt _ hall
    have h0 : isRetryable (oracle attempt) = true := by
      have := hall 0 (by omega)
      rwa [Nat.add_zero] at this
    cases ho : oracle attempt with
    | ok t =>
      rw [ho] at h0
      simp [isRetryable] at h0
    | attrError m =>
      have hr : attrRetryable m = true := by
        rw [ho] at h0
        simpa [isRetryable] using h0
      by_cases hf : f = 0
      · subst hf
        simp only [ttGo, ho, hr, if_true]
        simp
      · have hrec := ih (attempt + 1) (Nat.pos_of_ne_zero hf) (fun j hj => by
          have := hall (j + 1) (by omega)
          rwa [show attempt + (j + 1) = attempt + 1 + j from by omega] at this)
        have hstep : ttGo oracle (f + 1) attempt
            = ⟨(ttGo oracle f (attempt + 1)).result,
               (ttGo oracle f (attempt + 1)).attempts + 1,
               (attempt + 1) * 2 :: (ttGo oracle f (attempt + 1)).waits⟩ := by
          simp only [ttGo, ho, hr, if_true, if_neg hf]
        rw [hstep, hrec]
        dsimp only
        rw [show f + 1 - 1 = f from by omega]
        rw [← range_mul_shift attempt f (Nat.pos_of_ne_zero hf)]
    | otherError m =>
      rw [ho] at h0
      have h0' : !hasInvalidDest (asciiLower m)
          && hasRateIndicator (asciiLower m) = true := by
        simpa [isRetryable] using h0
      have hparts : hasInvalidDest (asciiLower m) = false ∧
          hasRateIndicator (asciiLower m) = true := by
        simpa using h0'
      have hi := hparts.1
      have hr := hparts.2
      by_cases hf : f = 0
      · subst hf
        simp only [ttGo, ho, hi, Bool.false_eq_true, if_false, hr, if_true]
        simp
      · have hrec := ih (attempt + 1) (Nat.pos_of_ne_zero hf) (fun j hj => by
          have := hall (j + 1) (by omega)
          rwa [show attempt + (j + 1) = attempt + 1 + j from by omega] at this)
        have hstep : ttGo oracle (f + 1) attempt
            = ⟨(ttGo oracle f (attempt + 1)).result,
               (ttGo oracle f (attempt + 1)).attempts + 1,
               (attempt + 1) * 2 :: (ttGo oracle f (attempt + 1)).waits⟩ := by
          simp only [ttGo, ho, hi, Bool.false_eq_true, if_false, hr,
            if_true, if_neg hf]
        rw [hstep, hrec]
        dsimp only
        rw [show f + 1 - 1 = f from by omega]
        rw [← range_mul_shift attempt f (Nat.pos_of_ne_zero hf)]

/-- Claim C5: translate_text makes at most 10 attempts; every wait between
attempts is (attempt index + 1) * 2 time-units, linearly increasing from
the first attempt; a retry only ever follows a retryable outcome (a
rate-limit indicator substring in the lowered error text, or the known
AttributeError family); a non-retryable first outcome ends the call after
a single attempt with no wait; and when every attempt fails retryably the
call returns failure after exactly 10 attempts with waits 2, 4, ..., 18. -/
theorem c5_translate_retry_policy (oracle : Nat → AttemptResult) :
    (1 ≤ (translate_text oracle).attempts ∧
        (translate_text oracle).attempts ≤ 10) ∧
      (translate_text oracle).waits =
        (List.range ((translate_text oracle).attempts - 1)).map
          (fun j => (j + 1) * 2) ∧
      (∀ j, j + 1 < (translate_text oracle).attempts →
        isRetryable (oracle j) = true) ∧
      (isRetryable (oracle 0) = false →
        (translate_text oracle).attempts = 1 ∧
          (translate_text oracle).waits = []) ∧
      ((∀ j, j < 10 → isRetryable (oracle j) = true) →
        translate_text oracle
          = ⟨.failure, 10, [2, 4, 6, 8, 10, 12, 14, 16, 18]⟩) := by
  obtain ⟨h1, h2, h3, h4⟩ := ttGo_spec oracle 10 0 (by omega)
  have hw : (translate_text oracle).waits =
      (List.range ((translate_text oracle).attempts - 1)).map
        (fun j => (j + 1) * 2) := by
    show (ttGo oracle 10 0).waits = _
    rw [h3]
    apply List.map_congr_left
    intro j _
    show (0 + j + 1) * 2 = (j + 1) * 2
    omega
  have hretry : ∀ j, j + 1 < (translate_text oracle).attempts →
      isRetryable (oracle j) = true := by
    intro j hj
    have := h4 j hj
    rwa [Nat.zero_add] at this
  refine ⟨⟨h1, h2⟩, hw, hretry, ?_, ?_⟩
  · intro hnr
    have ha : (translate_text oracle).attempts = 1 := by
      by_contra hne
      have h2' : 2 ≤ (translate_text oracle).attempts := by
        have h1' : 1 ≤ (translate_text oracle).attempts := h1
        omega
      have := hretry 0 (by omega)
      rw [this] at hnr
      exact absurd hnr (by simp)
    refine ⟨ha, ?_⟩
    rw [hw, ha]
    simp
  · intro hall
    have := ttGo_all_retry oracle 10 0 (by omega) (fun j hj => by
      rw [Nat.zero_add]
      exact hall j hj)
    show ttGo oracle 10 0 = _
    rw [this]
    decide

/-- Claim C5 witness: a constantly rate-limited oracle exhausts all 10
attempts and produces the full backoff sequence. -/
theorem c5_witness :
    (∀ j, j < 10 → isRetryable
      ((fun _ => AttemptResult.otherError "rate limited") j) = true) ∧
    translate_text (fun _ => AttemptResult.otherError "rate limited")
      = ⟨TResult.failure, 10, [2, 4, 6, 8, 10, 12, 14, 16, 18]⟩ :=
  ⟨by decide,
    (c5_translate_retry_policy
      (fun _ => AttemptResult.otherError "rate limited")).2.2.2.2 (by decide)⟩
